import Mathlib

/-!
Verification of the ISOBMFF box core of libheif against its specification.

The repository sources provide the class declarations in `src/libheif/box.h`.
Where a member function body is present in that header (`Box::append_child_box`,
`Box_idat::append_data`) the Lean definition below is a direct embedding of it.
The remaining operation bodies live in a `box.cc` translation unit that is not
part of the sources; those definitions are modelled from the specification and
say so in their doc comments.

Bytes are modelled as natural numbers (well-formed wire data has every byte
below 256); byte streams are lists consumed from the front.
-/


/-- Every byte of a wire-format input is an 8-bit value. -/
def ByteOk (input : List Nat) : Prop := ∀ x ∈ input, x < 256

instance : DecidablePred ByteOk := fun input =>
  inferInstanceAs (Decidable (∀ x ∈ input, x < 256))

/-- Read one big-endian 32-bit value off the front of the stream.
Modelled from the spec: `BitstreamRange::read32` (bitstream primitives are
assumed collaborators, spec section 6); a read past the end fails. -/
def readU32 : List Nat → Option (Nat × List Nat)
  | b0 :: b1 :: b2 :: b3 :: rest => some (((b0 * 256 + b1) * 256 + b2) * 256 + b3, rest)
  | _ => none

/-- Read one big-endian 64-bit value off the front of the stream.
Modelled from the spec: `BitstreamRange::read64`. -/
def readU64 : List Nat → Option (Nat × List Nat)
  | b0 :: b1 :: b2 :: b3 :: b4 :: b5 :: b6 :: b7 :: rest =>
      some ((((((((b0 * 256 + b1) * 256 + b2) * 256 + b3) * 256 + b4) * 256 + b5) * 256
              + b6) * 256 + b7 : Nat), rest)
  | _ => none

/-- Read a fixed number of raw bytes off the front of the stream.
Modelled from the spec: `BitstreamRange::read_bytes(n)`. -/
def readBytes (n : Nat) (input : List Nat) : Option (List Nat × List Nat) :=
  if n ≤ input.length then some (input.take n, input.drop n) else none

/-- Emit a 32-bit value as four big-endian bytes.
Modelled from the spec: `StreamWriter::write_u32`. -/
def writeU32 (v : Nat) : List Nat :=
  [v / 16777216 % 256, v / 65536 % 256, v / 256 % 256, v % 256]

/-- Emit a 64-bit value as eight big-endian bytes.
Modelled from the spec: `StreamWriter::write_u64`. -/
def writeU64 (v : Nat) : List Nat :=
  [v / 72057594037927936 % 256, v / 281474976710656 % 256, v / 1099511627776 % 256,
   v / 4294967296 % 256, v / 16777216 % 256, v / 65536 % 256, v / 256 % 256, v % 256]

theorem readU32_writeU32 {input : List Nat} {v : Nat} {rest : List Nat}
    (h : readU32 input = some (v, rest)) (hb : ByteOk input) :
    writeU32 v ++ rest = input := by
  match input with
  | [] => simp [readU32] at h
  | [_] => simp [readU32] at h
  | [_, _] => simp [readU32] at h
  | [_, _, _] => simp [readU32] at h
  | b0 :: b1 :: b2 :: b3 :: r =>
    simp only [readU32, Option.some.injEq, Prod.mk.injEq] at h
    obtain ⟨hv, hr⟩ := h
    have h0 : b0 < 256 := hb b0 (by simp)
    have h1 : b1 < 256 := hb b1 (by simp)
    have h2 : b2 < 256 := hb b2 (by simp)
    have h3 : b3 < 256 := hb b3 (by simp)
    subst hv hr
    simp only [writeU32, List.cons_append, List.nil_append, List.cons.injEq]
    exact ⟨by omega, by omega, by omega, by omega, trivial⟩

theorem readU64_writeU64 {input : List Nat} {v : Nat} {rest : List Nat}
    (h : readU64 input = some (v, rest)) (hb : ByteOk input) :
    writeU64 v ++ rest = input := by
  match input with
  | [] => simp [readU64] at h
  | [_] => simp [readU64] at h
  | [_, _] => simp [readU64] at h
  | [_, _, _] => simp [readU64] at h
  | [_, _, _, _] => simp [readU64] at h
  | [_, _, _, _, _] => simp [readU64] at h
  | [_, _, _, _, _, _] => simp [readU64] at h
  | [_, _, _, _, _, _, _] => simp [readU64] at h
  | b0 :: b1 :: b2 :: b3 :: b4 :: b5 :: b6 :: b7 :: r =>
    simp only [readU64, Option.some.injEq, Prod.mk.injEq] at h
    obtain ⟨hv, hr⟩ := h
    have h0 : b0 < 256 := hb b0 (by simp)
    have h1 : b1 < 256 := hb b1 (by simp)
    have h2 : b2 < 256 := hb b2 (by simp)
    have h3 : b3 < 256 := hb b3 (by simp)
    have h4 : b4 < 256 := hb b4 (by simp)
    have h5 : b5 < 256 := hb b5 (by simp)
    have h6 : b6 < 256 := hb b6 (by simp)
    have h7 : b7 < 256 := hb b7 (by simp)
    subst hv hr
    simp only [writeU64, List.cons_append, List.nil_append, List.cons.injEq]
    exact ⟨by omega, by omega, by omega, by omega, by omega, by omega, by omega, by omega, trivial⟩

theorem readBytes_eq {n : Nat} {input bs rest : List Nat}
    (h : readBytes n input = some (bs, rest)) :
    bs ++ rest = input ∧ bs.length = n := by
  unfold readBytes at h
  split at h
  · next hle =>
    simp only [Option.some.injEq, Prod.mk.injEq] at h
    obtain ⟨h1, h2⟩ := h
    subst h1 h2
    exact ⟨List.take_append_drop n input, List.length_take_of_le hle⟩
  · exact absurd h (by simp)

/-! ## Box header codec and box tree parser

Modelled from the spec (sections 4.1 and 4.3): `BoxHeader::parse_header`,
`Box::read` and `Box::write` are declared in `src/libheif/box.h` but their
bodies are in the absent `box.cc`. The parser keeps each box's wire size form
and opaque body bytes so that the write path can reproduce the input; the spec
states that recognized boxes are read and written bit-identical and unknown
boxes are preserved verbatim (sections 4.3 and 6). -/

/-- FourCC of the `uuid` extended-type marker. -/
def uuidFourcc : Nat := ((117 * 256 + 117) * 256 + 105) * 256 + 100

/-- Wire form of the size field of a box header: a plain 32-bit size, a 64-bit
extended size (32-bit field holds 1), or size zero meaning "to end of file". -/
inductive SizeForm where
  | compact (s : Nat)
  | extended (s : Nat)
  | toEnd
deriving DecidableEq, Repr

/-- Structural parse errors surfaced by the header codec (spec section 4.1). -/
inductive BoxError where
  | invalidBoxSize
  | truncatedBox
deriving DecidableEq, Repr

/-- A parsed box: its header fields plus the opaque body bytes. -/
structure BoxData where
  sizeForm : SizeForm
  boxtype : Nat
  uuid : Option (List Nat)
  body : List Nat
deriving DecidableEq, Repr

/-- Header size in bytes: 8, plus 8 for an extended size, plus 16 for a uuid type. -/
def headerSizeOf (sf : SizeForm) (uuid : Option (List Nat)) : Nat :=
  8 + (match sf with | .extended _ => 8 | _ => 0) + (if uuid.isSome then 16 else 0)

/-- Value of the leading 32-bit size field for a given size form. -/
def sizePrefix : SizeForm → Nat
  | .compact s => s
  | .extended _ => 1
  | .toEnd => 0

/-- Bytes of the optional 64-bit extended size field. -/
def sizeExtBytes : SizeForm → List Nat
  | .extended s => writeU64 s
  | _ => []

/-- Declared total box size, when one is declared (none for "to end of file"). -/
def declaredSize : SizeForm → Option Nat
  | .compact s => some s
  | .extended s => some s
  | .toEnd => none

/-- Interpret the 32-bit size field, reading the 64-bit extended size when the
field holds 1 and mapping 0 to "to end of file". Modelled from the spec,
section 4.1. -/
def readSizeExt (size32 : Nat) (r : List Nat) : Except BoxError (SizeForm × List Nat) :=
  if size32 = 1 then
    match readU64 r with
    | none => .error .truncatedBox
    | some (s64, r3) => .ok (.extended s64, r3)
  else if size32 = 0 then .ok (.toEnd, r)
  else .ok (.compact size32, r)

/-- Read the 16-byte extended uuid type when the fourcc is `uuid`. Modelled
from the spec, section 4.1. -/
def readUuidExt (typ : Nat) (r : List Nat) :
    Except BoxError (Option (List Nat) × List Nat) :=
  if typ = uuidFourcc then
    match readBytes 16 r with
    | none => .error .truncatedBox
    | some (u, r4) => .ok (some u, r4)
  else .ok (none, r)

/-- Read the raw header fields: 32-bit size, fourcc, optional 64-bit extended
size, optional 16-byte uuid type. Modelled from the spec, section 4.1. -/
def readHeaderFields (input : List Nat) :
    Except BoxError (SizeForm × Nat × Option (List Nat) × List Nat) :=
  match readU32 input with
  | none => .error .truncatedBox
  | some (size32, r1) =>
    match readU32 r1 with
    | none => .error .truncatedBox
    | some (typ, r2) =>
      match readSizeExt size32 r2 with
      | .error e => .error e
      | .ok (sf, r3) =>
        match readUuidExt typ r3 with
        | .error e => .error e
        | .ok (uuid, r4) => .ok (sf, typ, uuid, r4)

/-- Check the declared size against the header size and the enclosing range,
then slice off the body. Modelled from the spec, section 4.1: a declared size
smaller than the header size is `InvalidBoxSize`; a declared size that exceeds
the enclosing range is `TruncatedBox`; size zero runs to the end of the range. -/
def checkSizeAndSlice (sf : SizeForm) (typ : Nat) (uuid : Option (List Nat))
    (r : List Nat) : Except BoxError (BoxData × List Nat) :=
  match declaredSize sf with
  | none => .ok (⟨sf, typ, uuid, r⟩, [])
  | some s =>
    let hsz := headerSizeOf sf uuid
    if s < hsz then .error .invalidBoxSize
    else if r.length < s - hsz then .error .truncatedBox
    else .ok (⟨sf, typ, uuid, r.take (s - hsz)⟩, r.drop (s - hsz))

/-- Parse one full box header with its size checks.
Modelled from the spec: `BoxHeader::parse_header` (declared at
src/libheif/box.h:128; body in the absent box.cc). -/
def BoxHeader.parse_header (input : List Nat) : Except BoxError (BoxData × List Nat) :=
  match readHeaderFields input with
  | .error e => .error e
  | .ok (sf, typ, uuid, r) => checkSizeAndSlice sf typ uuid r

/-- Read one box off the front of the stream.
Modelled from the spec: `Box::read` (declared at src/libheif/box.h:160); the
dispatcher hands the variant a sub-range limited to the body and always
advances to the declared box end, so at byte level a box is its header plus
its body bytes, kept opaquely. -/
def Box.read (input : List Nat) : Except BoxError (BoxData × List Nat) :=
  BoxHeader.parse_header input

/-- Serialize one box: size field, fourcc, optional extended size, optional
uuid type, body. Modelled from the spec: `Box::write` (declared at
src/libheif/box.h:162); recognized and unknown boxes alike are written
bit-identical to what was read (spec sections 4.3 and 6). -/
def Box.write (b : BoxData) : List Nat :=
  writeU32 (sizePrefix b.sizeForm) ++ writeU32 b.boxtype ++
    sizeExtBytes b.sizeForm ++ b.uuid.getD [] ++ b.body

/-- Parse the top-level forest: boxes until the stream is exhausted.
The fuel argument bounds the recursion depth; `parse_top_level` supplies
`input.length`, which is sufficient since every box consumes at least its
8-byte header. -/
def parseBoxes (fuel : Nat) (input : List Nat) : Except BoxError (List BoxData) :=
  match input with
  | [] => .ok []
  | _ :: _ =>
    match fuel with
    | 0 => .error .truncatedBox
    | fuel + 1 =>
      match Box.read input with
      | .error e => .error e
      | .ok (b, rest) =>
        match parseBoxes fuel rest with
        | .error e => .error e
        | .ok bs => .ok (b :: bs)

/-- Parse a whole file into its top-level box forest (spec section 6,
`parse_top_level`). -/
def parse_top_level (input : List Nat) : Except BoxError (List BoxData) :=
  parseBoxes input.length input

/-- Serialize a top-level box forest (spec section 6, `write_file`). -/
def write_file (boxes : List BoxData) : List Nat :=
  (boxes.map Box.write).flatten

theorem byteOk_suffix {a b : List Nat} (h : b <:+ a) (hb : ByteOk a) : ByteOk b := by
  obtain ⟨t, ht⟩ := h
  intro x hx
  exact hb x (ht ▸ List.mem_append_right t hx)

theorem readU32_consume {input : List Nat} {v : Nat} {rest : List Nat}
    (h : readU32 input = some (v, rest)) :
    rest <:+ input ∧ input.length = rest.length + 4 := by
  match input with
  | [] => simp [readU32] at h
  | [_] => simp [readU32] at h
  | [_, _] => simp [readU32] at h
  | [_, _, _] => simp [readU32] at h
  | b0 :: b1 :: b2 :: b3 :: r =>
    simp only [readU32, Option.some.injEq, Prod.mk.injEq] at h
    obtain ⟨_, hr⟩ := h
    subst hr
    exact ⟨⟨[b0, b1, b2, b3], rfl⟩, by simp⟩

theorem readSizeExt_spec {size32 : Nat} {r : List Nat} {sf : SizeForm} {r' : List Nat}
    (h : readSizeExt size32 r = .ok (sf, r')) (hb : ByteOk r) :
    sizePrefix sf = size32 ∧ sizeExtBytes sf ++ r' = r := by
  unfold readSizeExt at h
  split at h
  · next h1 =>
    subst h1
    cases h64 : readU64 r with
    | none => rw [h64] at h; exact absurd h (by simp)
    | some p =>
      obtain ⟨s64, r3⟩ := p
      rw [h64] at h
      simp only [Except.ok.injEq, Prod.mk.injEq] at h
      obtain ⟨hsf, hr⟩ := h
      subst hsf hr
      exact ⟨rfl, readU64_writeU64 h64 hb⟩
  · split at h
    · next h0 =>
      subst h0
      simp only [Except.ok.injEq, Prod.mk.injEq] at h
      obtain ⟨hsf, hr⟩ := h
      subst hsf hr
      exact ⟨rfl, rfl⟩
    · simp only [Except.ok.injEq, Prod.mk.injEq] at h
      obtain ⟨hsf, hr⟩ := h
      subst hsf hr
      exact ⟨rfl, rfl⟩

theorem readUuidExt_spec {typ : Nat} {r : List Nat} {uuid : Option (List Nat)} {r' : List Nat}
    (h : readUuidExt typ r = .ok (uuid, r')) :
    uuid.getD [] ++ r' = r := by
  unfold readUuidExt at h
  split at h
  · cases h16 : readBytes 16 r with
    | none => rw [h16] at h; exact absurd h (by simp)
    | some p =>
      obtain ⟨u, r4⟩ := p
      rw [h16] at h
      simp only [Except.ok.injEq, Prod.mk.injEq] at h
      obtain ⟨hu, hr⟩ := h
      subst hu hr
      exact (readBytes_eq h16).1
  · simp only [Except.ok.injEq, Prod.mk.injEq] at h
    obtain ⟨hu, hr⟩ := h
    subst hu hr
    simp

theorem readHeaderFields_spec {input : List Nat} {sf : SizeForm} {typ : Nat}
    {uuid : Option (List Nat)} {r : List Nat}
    (h : readHeaderFields input = .ok (sf, typ, uuid, r)) (hb : ByteOk input) :
    writeU32 (sizePrefix sf) ++ (writeU32 typ ++ (sizeExtBytes sf ++ (uuid.getD [] ++ r))) = input := by
  unfold readHeaderFields at h
  cases h32 : readU32 input with
  | none => rw [h32] at h; exact absurd h (by simp)
  | some p1 =>
    obtain ⟨size32, r1⟩ := p1
    rw [h32] at h
    dsimp only at h
    have hb1 : ByteOk r1 := byteOk_suffix (readU32_consume h32).1 hb
    cases hty : readU32 r1 with
    | none => rw [hty] at h; exact absurd h (by simp)
    | some p2 =>
      obtain ⟨typ0, r2⟩ := p2
      rw [hty] at h
      dsimp only at h
      have hb2 : ByteOk r2 := byteOk_suffix (readU32_consume hty).1 hb1
      cases hse : readSizeExt size32 r2 with
      | error e => rw [hse] at h; exact absurd h (by simp)
      | ok p3 =>
        obtain ⟨sf0, r3⟩ := p3
        rw [hse] at h
        dsimp only at h
        obtain ⟨hpre, hext⟩ := readSizeExt_spec hse hb2
        cases huu : readUuidExt typ0 r3 with
        | error e => rw [huu] at h; exact absurd h (by simp)
        | ok p4 =>
          obtain ⟨uuid0, r4⟩ := p4
          rw [huu] at h
          dsimp only at h
          simp only [Except.ok.injEq, Prod.mk.injEq] at h
          obtain ⟨hsf, htyp, huuid, hr⟩ := h
          subst hsf htyp huuid hr
          rw [hpre, readUuidExt_spec huu, hext,
              readU32_writeU32 hty hb1, readU32_writeU32 h32 hb]

theorem readU64_consume {input : List Nat} {v : Nat} {rest : List Nat}
    (h : readU64 input = some (v, rest)) :
    rest <:+ input ∧ input.length = rest.length + 8 := by
  match input with
  | [] => simp [readU64] at h
  | [_] => simp [readU64] at h
  | [_, _] => simp [readU64] at h
  | [_, _, _] => simp [readU64] at h
  | [_, _, _, _] => simp [readU64] at h
  | [_, _, _, _, _] => simp [readU64] at h
  | [_, _, _, _, _, _] => simp [readU64] at h
  | [_, _, _, _, _, _, _] => simp [readU64] at h
  | b0 :: b1 :: b2 :: b3 :: b4 :: b5 :: b6 :: b7 :: r =>
    simp only [readU64, Option.some.injEq, Prod.mk.injEq] at h
    obtain ⟨_, hr⟩ := h
    subst hr
    exact ⟨⟨[b0, b1, b2, b3, b4, b5, b6, b7], rfl⟩, by simp⟩

theorem readSizeExt_consume {size32 : Nat} {r : List Nat} {sf : SizeForm} {r' : List Nat}
    (h : readSizeExt size32 r = .ok (sf, r')) : r' <:+ r := by
  unfold readSizeExt at h
  split at h
  · cases h64 : readU64 r with
    | none => rw [h64] at h; exact absurd h (by simp)
    | some p =>
      obtain ⟨s64, r3⟩ := p
      rw [h64] at h
      simp only [Except.ok.injEq, Prod.mk.injEq] at h
      obtain ⟨_, hr⟩ := h
      subst hr
      exact (readU64_consume h64).1
  · split at h <;>
    · simp only [Except.ok.injEq, Prod.mk.injEq] at h
      obtain ⟨_, hr⟩ := h
      subst hr
      exact List.suffix_refl r

theorem readUuidExt_consume {typ : Nat} {r : List Nat} {uuid : Option (List Nat)} {r' : List Nat}
    (h : readUuidExt typ r = .ok (uuid, r')) : r' <:+ r := by
  have hs := readUuidExt_spec h
  exact ⟨uuid.getD [], hs⟩

theorem readHeaderFields_consume {input : List Nat} {sf : SizeForm} {typ : Nat}
    {uuid : Option (List Nat)} {r : List Nat}
    (h : readHeaderFields input = .ok (sf, typ, uuid, r)) :
    r <:+ input ∧ r.length + 8 ≤ input.length := by
  unfold readHeaderFields at h
  cases h32 : readU32 input with
  | none => rw [h32] at h; exact absurd h (by simp)
  | some p1 =>
    obtain ⟨size32, r1⟩ := p1
    rw [h32] at h
    dsimp only at h
    obtain ⟨hs1, hl1⟩ := readU32_consume h32
    cases hty : readU32 r1 with
    | none => rw [hty] at h; exact absurd h (by simp)
    | some p2 =>
      obtain ⟨typ0, r2⟩ := p2
      rw [hty] at h
      dsimp only at h
      obtain ⟨hs2, hl2⟩ := readU32_consume hty
      cases hse : readSizeExt size32 r2 with
      | error e => rw [hse] at h; exact absurd h (by simp)
      | ok p3 =>
        obtain ⟨sf0, r3⟩ := p3
        rw [hse] at h
        dsimp only at h
        have hs3 := readSizeExt_consume hse
        cases huu : readUuidExt typ0 r3 with
        | error e => rw [huu] at h; exact absurd h (by simp)
        | ok p4 =>
          obtain ⟨uuid0, r4⟩ := p4
          rw [huu] at h
          dsimp only at h
          simp only [Except.ok.injEq, Prod.mk.injEq] at h
          obtain ⟨hsf, htyp, huuid, hr⟩ := h
          subst hsf htyp huuid hr
          have hs4 := readUuidExt_consume huu
          have hl3 : r3.length ≤ r2.length := hs3.length_le
          have hl4 := hs4.length_le
          exact ⟨((hs4.trans hs3).trans hs2).trans hs1, by omega⟩

theorem checkSizeAndSlice_spec {sf : SizeForm} {typ : Nat} {uuid : Option (List Nat)}
    {r : List Nat} {b : BoxData} {rest : List Nat}
    (h : checkSizeAndSlice sf typ uuid r = .ok (b, rest)) :
    b.sizeForm = sf ∧ b.boxtype = typ ∧ b.uuid = uuid ∧ b.body ++ rest = r ∧ rest <:+ r := by
  unfold checkSizeAndSlice at h
  cases hds : declaredSize sf with
  | none =>
    rw [hds] at h
    dsimp only at h
    simp only [Except.ok.injEq, Prod.mk.injEq] at h
    obtain ⟨hb, hr⟩ := h
    subst hb hr
    exact ⟨rfl, rfl, rfl, by simp, List.nil_suffix⟩
  | some s =>
    rw [hds] at h
    dsimp only at h
    split at h
    · exact absurd h (by simp)
    · split at h
      · exact absurd h (by simp)
      · simp only [Except.ok.injEq, Prod.mk.injEq] at h
        obtain ⟨hb, hr⟩ := h
        subst hb hr
        exact ⟨rfl, rfl, rfl, List.take_append_drop _ r, List.drop_suffix _ r⟩

theorem Box_read_write {input : List Nat} {b : BoxData} {rest : List Nat}
    (h : Box.read input = .ok (b, rest)) (hb : ByteOk input) :
    Box.write b ++ rest = input := by
  unfold Box.read BoxHeader.parse_header at h
  cases hh : readHeaderFields input with
  | error e => rw [hh] at h; exact absurd h (by simp)
  | ok q =>
    obtain ⟨sf, typ, uuid, r⟩ := q
    rw [hh] at h
    dsimp only at h
    obtain ⟨hsf, htyp, huuid, hbody, _⟩ := checkSizeAndSlice_spec h
    have hspec := readHeaderFields_spec hh hb
    unfold Box.write
    rw [hsf, htyp, huuid]
    calc writeU32 (sizePrefix sf) ++ writeU32 typ ++ sizeExtBytes sf ++ uuid.getD [] ++ b.body ++ rest
        = writeU32 (sizePrefix sf) ++ (writeU32 typ ++ (sizeExtBytes sf ++ (uuid.getD [] ++ (b.body ++ rest)))) := by
          simp [List.append_assoc]
      _ = writeU32 (sizePrefix sf) ++ (writeU32 typ ++ (sizeExtBytes sf ++ (uuid.getD [] ++ r))) := by
          rw [hbody]
      _ = input := hspec

theorem Box_read_consume {input : List Nat} {b : BoxData} {rest : List Nat}
    (h : Box.read input = .ok (b, rest)) :
    rest <:+ input ∧ rest.length + 8 ≤ input.length := by
  unfold Box.read BoxHeader.parse_header at h
  cases hh : readHeaderFields input with
  | error e => rw [hh] at h; exact absurd h (by simp)
  | ok q =>
    obtain ⟨sf, typ, uuid, r⟩ := q
    rw [hh] at h
    dsimp only at h
    obtain ⟨hsuf, hlen⟩ := readHeaderFields_consume hh
    obtain ⟨_, _, _, _, hrsuf⟩ := checkSizeAndSlice_spec h
    exact ⟨hrsuf.trans hsuf, by have := hrsuf.length_le; omega⟩

theorem write_file_cons (b : BoxData) (bs : List BoxData) :
    write_file (b :: bs) = Box.write b ++ write_file bs := by
  simp [write_file]

theorem parseBoxes_write : ∀ (fuel : Nat) (input : List Nat) (boxes : List BoxData),
    ByteOk input → parseBoxes fuel input = .ok boxes → write_file boxes = input := by
  intro fuel
  induction fuel with
  | zero =>
    intro input boxes hb h
    match input with
    | [] =>
      simp only [parseBoxes, Except.ok.injEq] at h
      subst h
      rfl
    | _ :: _ => simp [parseBoxes] at h
  | succ fuel ih =>
    intro input boxes hb h
    match input with
    | [] =>
      simp only [parseBoxes, Except.ok.injEq] at h
      subst h
      rfl
    | x :: xs =>
      unfold parseBoxes at h
      cases hr : Box.read (x :: xs) with
      | error e => rw [hr] at h; exact absurd h (by simp)
      | ok p =>
        obtain ⟨b, rest⟩ := p
        rw [hr] at h
        dsimp only at h
        cases hps : parseBoxes fuel rest with
        | error e => rw [hps] at h; exact absurd h (by simp)
        | ok bs =>
          rw [hps] at h
          dsimp only at h
          simp only [Except.ok.injEq] at h
          subst h
          have hsuf := (Box_read_consume hr).1
          have hbr : ByteOk rest := byteOk_suffix hsuf hb
          rw [write_file_cons, ih rest bs hbr hps]
          exact Box_read_write hr hb

theorem parseBoxes_fuel : ∀ (n : Nat) (input : List Nat), input.length ≤ n →
    ∀ f1 f2 : Nat, input.length ≤ f1 → input.length ≤ f2 →
    parseBoxes f1 input = parseBoxes f2 input := by
  intro n
  induction n with
  | zero =>
    intro input hn f1 f2 _ _
    match input with
    | [] => cases f1 <;> cases f2 <;> rfl
  | succ n ih =>
    intro input hn f1 f2 h1 h2
    match input with
    | [] => cases f1 <;> cases f2 <;> rfl
    | x :: xs =>
      have hx1 : 1 ≤ (x :: xs).length := by simp
      match f1, f2 with
      | g1 + 1, g2 + 1 =>
        show parseBoxes (g1 + 1) (x :: xs) = parseBoxes (g2 + 1) (x :: xs)
        unfold parseBoxes
        cases hr : Box.read (x :: xs) with
        | error e => rfl
        | ok p =>
          obtain ⟨b, rest⟩ := p
          dsimp only
          have hc := (Box_read_consume hr).2
          simp only [List.length_cons] at hn h1 h2 hc
          rw [ih rest (by omega) g1 g2 (by omega) (by omega)]
      | 0, _ => exact absurd h1 (by simp)
      | _ + 1, 0 => exact absurd h2 (by simp)

/-- C1: for every well-formed input file (byte sequence accepted by the
parser), writing the parsed box forest reproduces the input byte-for-byte.
The model keeps every box's wire size form and body verbatim, which is the
pinned-minimum-version case in which the spec states the equality is exact. -/
theorem c1_parse_write_roundtrip (input : List Nat) (forest : List BoxData)
    (hb : ByteOk input) (h : parse_top_level input = .ok forest) :
    write_file forest = input :=
  parseBoxes_write input.length input forest hb h

theorem c1_parse_write_roundtrip_witness :
    write_file [⟨SizeForm.compact 12, 1718909296, none, [104, 101, 105, 99]⟩,
                ⟨SizeForm.toEnd, 1835295092, none, [1, 2, 3]⟩] =
      [0, 0, 0, 12, 102, 116, 121, 112, 104, 101, 105, 99,
       0, 0, 0, 0, 109, 100, 97, 116, 1, 2, 3] :=
  c1_parse_write_roundtrip
    [0, 0, 0, 12, 102, 116, 121, 112, 104, 101, 105, 99,
     0, 0, 0, 0, 109, 100, 97, 116, 1, 2, 3]
    [⟨SizeForm.compact 12, 1718909296, none, [104, 101, 105, 99]⟩,
     ⟨SizeForm.toEnd, 1835295092, none, [1, 2, 3]⟩]
    (by decide) (by rfl)

/-- C4: for every input byte sequence, parsing terminates (the recursion is
fueled and any fuel at least the input length gives the fixed result), never
reads past the input (every continuation handed on is a suffix of the input,
at least 8 header bytes shorter), and structural problems surface as error
values of the parse result, never as crashes. -/
theorem c4_parse_safety (input : List Nat) :
    ((∃ forest, parse_top_level input = .ok forest) ∨
      (∃ e, parse_top_level input = .error e)) ∧
    (∀ fuel : Nat, input.length ≤ fuel → parseBoxes fuel input = parse_top_level input) ∧
    (∀ (b : BoxData) (rest : List Nat), Box.read input = .ok (b, rest) →
      rest <:+ input ∧ rest.length + 8 ≤ input.length) := by
  refine ⟨?_, ?_, ?_⟩
  · cases h : parse_top_level input with
    | ok forest => exact Or.inl ⟨forest, rfl⟩
    | error e => exact Or.inr ⟨e, rfl⟩
  · intro fuel hf
    exact parseBoxes_fuel input.length input le_rfl fuel input.length hf le_rfl
  · intro b rest h
    exact Box_read_consume h

theorem c4_parse_safety_witness :
    parseBoxes 20 [0, 0, 0, 8, 102, 114, 101, 101] =
      parse_top_level [0, 0, 0, 8, 102, 114, 101, 101] ∧
    ([] : List Nat) <:+ [0, 0, 0, 8, 102, 114, 101, 101] ∧
    ([] : List Nat).length + 8 ≤ ([0, 0, 0, 8, 102, 114, 101, 101] : List Nat).length :=
  ⟨(c4_parse_safety [0, 0, 0, 8, 102, 114, 101, 101]).2.1 20 (by decide),
   (c4_parse_safety [0, 0, 0, 8, 102, 114, 101, 101]).2.2
     ⟨SizeForm.compact 8, 1718773093, none, []⟩ [] (by rfl)⟩

/-- C5: `BoxHeader::parse_header` returns the `InvalidBoxSize` error whenever
the declared box size is smaller than the header size, and the `TruncatedBox`
error whenever the declared size exceeds the enclosing bitstream range. -/
theorem c5_parse_header_errors (input : List Nat) (sf : SizeForm) (typ : Nat)
    (uuid : Option (List Nat)) (r : List Nat) (s : Nat)
    (hh : readHeaderFields input = .ok (sf, typ, uuid, r))
    (hds : declaredSize sf = some s) :
    (s < headerSizeOf sf uuid → BoxHeader.parse_header input = .error .invalidBoxSize) ∧
    (headerSizeOf sf uuid ≤ s → r.length < s - headerSizeOf sf uuid →
      BoxHeader.parse_header input = .error .truncatedBox) := by
  unfold BoxHeader.parse_header
  rw [hh]
  dsimp only
  unfold checkSizeAndSlice
  rw [hds]
  dsimp only
  constructor
  · intro hlt
    rw [if_pos hlt]
  · intro hge hlen
    rw [if_neg (by omega), if_pos hlen]

theorem c5_parse_header_errors_witness :
    BoxHeader.parse_header [0, 0, 0, 4, 102, 114, 101, 101] =
      .error .invalidBoxSize ∧
    BoxHeader.parse_header [0, 0, 0, 16, 102, 114, 101, 101] =
      .error .truncatedBox :=
  ⟨(c5_parse_header_errors [0, 0, 0, 4, 102, 114, 101, 101]
      (SizeForm.compact 4) 1718773093 none [] 4 rfl rfl).1 (by decide),
   (c5_parse_header_errors [0, 0, 0, 16, 102, 114, 101, 101]
      (SizeForm.compact 16) 1718773093 none [] 16 rfl rfl).2 (by decide) (by decide)⟩

/-! ## Inline member functions present in src/libheif/box.h -/

/-- Conversion of a `size_t` value to a C `int` (32-bit, two's complement
wrap), as in the casts `(int) m_children.size() - 1` and `(int) pos` in
src/libheif/box.h. -/
def intOfSizeT (n : Nat) : Int :=
  if n % 4294967296 < 2147483648 then (n % 4294967296 : Int)
  else (n % 4294967296 : Int) - 4294967296

/-- Child boxes are held through owning handles; for the child-list operations
only their identity matters. -/
abbrev BoxPtr := Nat

theorem intOfSizeT_eq (n : Nat) (h : n < 2147483648) : intOfSizeT n = n := by
  unfold intOfSizeT
  rw [if_pos (by omega)]
  omega

/-- Embedding of `Box::append_child_box` (src/libheif/box.h lines 188-192):
pushes the box onto `m_children` and returns `(int) m_children.size() - 1`. -/
def Box.append_child_box (children : List BoxPtr) (box : BoxPtr) : List BoxPtr × Int :=
  let children' := children ++ [box]
  (children', intOfSizeT children'.length - 1)

/-- Embedding of `Box_idat::append_data` (src/libheif/box.h lines 978-987):
remembers `pos = m_data_for_writing.size()`, appends the bytes to
`m_data_for_writing`, and returns `(int) pos`. -/
def Box_idat.append_data (buffer : List Nat) (data : List Nat) : List Nat × Int :=
  let pos := buffer.length
  (buffer ++ data, intOfSizeT pos)

/-- C9: `Box::append_child_box` appends the given box at the end of the child
list (prior children unchanged, in order) and, as long as the grown list is
representable in an `int`, returns the 0-based index of the new child, which
is the number of children before the call. -/
theorem c9_append_child_box (children : List BoxPtr) (box : BoxPtr)
    (h : children.length + 1 < 2147483648) :
    (Box.append_child_box children box).1 = children ++ [box] ∧
    (Box.append_child_box children box).2 = children.length := by
  refine ⟨rfl, ?_⟩
  show intOfSizeT (children ++ [box]).length - 1 = (children.length : Int)
  have hlen : (children ++ [box]).length = children.length + 1 := by simp
  rw [hlen, intOfSizeT_eq _ (by omega)]
  omega

theorem c9_append_child_box_witness :
    (Box.append_child_box [5, 7] 9).1 = [5, 7, 9] ∧
    (Box.append_child_box [5, 7] 9).2 = 2 :=
  c9_append_child_box [5, 7] 9 (by decide)

/-- C10: `Box_idat::append_data` appends the given bytes to the pending-write
buffer (prior contents unchanged) and returns the starting offset of the
appended bytes, the buffer size before the call cast to a signed 32-bit int;
the offset equals that size exactly while it stays within int range. -/
theorem c10_idat_append_data (buffer data : List Nat) :
    (Box_idat.append_data buffer data).1 = buffer ++ data ∧
    (Box_idat.append_data buffer data).2 = intOfSizeT buffer.length ∧
    (buffer.length < 2147483648 →
      (Box_idat.append_data buffer data).2 = buffer.length) := by
  refine ⟨rfl, rfl, ?_⟩
  intro h
  show intOfSizeT buffer.length = (buffer.length : Int)
  exact intOfSizeT_eq _ h

theorem c10_idat_append_data_witness :
    (Box_idat.append_data [1, 2, 3] [4, 5]).1 = [1, 2, 3, 4, 5] ∧
    (Box_idat.append_data [1, 2, 3] [4, 5]).2 = intOfSizeT 3 ∧
    ((1 : Nat) * 3 < 2147483648 → (Box_idat.append_data [1, 2, 3] [4, 5]).2 = 3) := by
  have h := c10_idat_append_data [1, 2, 3] [4, 5]
  exact ⟨h.1, by simpa using h.2.1, fun hr => by simpa using h.2.2 (by decide)⟩

/-! ## Fraction arithmetic

The `Fraction` class is declared at src/libheif/box.h lines 66-96 with default
member values numerator 0, denominator 1; the operation bodies are in the
absent box.cc and are modelled from the specification (sections 2 and 3 and
the rounding law of section 8). -/

/-- Embedding of the `Fraction` data (src/libheif/box.h lines 94-95): a signed
32-bit numerator and denominator, modelled as unbounded integers with the
32-bit range tracked explicitly. -/
structure Fraction where
  numerator : Int
  denominator : Int
deriving DecidableEq, Repr

/-- Default-constructed `Fraction`: the member initializers at
src/libheif/box.h lines 94-95 give 0/1. -/
def Fraction.defaultValue : Fraction := ⟨0, 1⟩

/-- The signed 32-bit range. -/
def inInt32 (n : Int) : Prop := -2147483648 ≤ n ∧ n ≤ 2147483647

instance : DecidablePred inInt32 := fun n =>
  inferInstanceAs (Decidable (-2147483648 ≤ n ∧ n ≤ 2147483647))

/-- Modelled from the spec: `Fraction::is_valid` (body in the absent box.cc);
the spec states "denominator ≠ 0 for a valid Fraction". -/
def Fraction.is_valid (f : Fraction) : Bool := f.denominator != 0

/-- Saturation target of an overflowing operation: an invalid fraction. -/
def Fraction.invalidValue : Fraction := ⟨0, 0⟩

/-- Modelled from the spec: `Fraction::operator+` computes the exact rational
sum and saturates to an invalid value when a 32-bit component would overflow
("operations saturate to invalid on overflow", spec section 3). -/
def Fraction.add (a b : Fraction) : Fraction :=
  let n := a.numerator * b.denominator + b.numerator * a.denominator
  let d := a.denominator * b.denominator
  if inInt32 n ∧ inInt32 d then ⟨n, d⟩ else Fraction.invalidValue

/-- Modelled from the spec: `Fraction::operator-`, saturating like the sum. -/
def Fraction.sub (a b : Fraction) : Fraction :=
  let n := a.numerator * b.denominator - b.numerator * a.denominator
  let d := a.denominator * b.denominator
  if inInt32 n ∧ inInt32 d then ⟨n, d⟩ else Fraction.invalidValue

/-- Modelled from the spec: `Fraction::operator/(int)` scales the denominator,
saturating to invalid on overflow. -/
def Fraction.divInt (a : Fraction) (n : Int) : Fraction :=
  let d := a.denominator * n
  if inInt32 d then ⟨a.numerator, d⟩ else Fraction.invalidValue

/-- Modelled from the spec: `Fraction::round_down`; the spec fixes only the
rounding law (section 8: round_down ≤ round ≤ round_up, difference 0 or 1),
so the three roundings are modelled as floor, ceiling and round-half-up of
the rational numerator/denominator. -/
def Fraction.round_down (f : Fraction) : Int := ⌊(f.numerator : ℚ) / f.denominator⌋

/-- Modelled from the spec: `Fraction::round_up` as the ceiling. -/
def Fraction.round_up (f : Fraction) : Int := ⌈(f.numerator : ℚ) / f.denominator⌉

/-- Modelled from the spec: `Fraction::round` as round-half-up. -/
def Fraction.round (f : Fraction) : Int := ⌊(f.numerator : ℚ) / f.denominator + 1/2⌋

/-- C6: for every Fraction with non-zero denominator, the roundings satisfy
round_down ≤ round ≤ round_up, and round_up − round_down is 0 or 1. -/
theorem c6_fraction_rounding (f : Fraction) (_hd : f.denominator ≠ 0) :
    f.round_down ≤ f.round ∧ f.round ≤ f.round_up ∧
    (f.round_up - f.round_down = 0 ∨ f.round_up - f.round_down = 1) := by
  unfold Fraction.round_down Fraction.round Fraction.round_up
  set q : ℚ := (f.numerator : ℚ) / f.denominator
  refine ⟨Int.floor_mono (by linarith), ?_, ?_⟩
  · have h1 : q + 1/2 < (⌈q⌉ : ℚ) + 1 := by
      have h := Int.le_ceil q
      linarith
    have h2 : ⌊q + 1/2⌋ < ⌈q⌉ + 1 := by
      rw [Int.floor_lt]
      push_cast
      linarith
    omega
  · have hfc := Int.ceil_le_floor_add_one q
    have hcf := Int.floor_le_ceil q
    omega

theorem c6_fraction_rounding_witness :
    Fraction.round_down ⟨3, 2⟩ ≤ Fraction.round ⟨3, 2⟩ ∧
    Fraction.round ⟨3, 2⟩ ≤ Fraction.round_up ⟨3, 2⟩ ∧
    (Fraction.round_up ⟨3, 2⟩ - Fraction.round_down ⟨3, 2⟩ = 0 ∨
      Fraction.round_up ⟨3, 2⟩ - Fraction.round_down ⟨3, 2⟩ = 1) :=
  c6_fraction_rounding ⟨3, 2⟩ (by decide)

/-- C7: a Fraction is valid exactly when its denominator is non-zero, the
default-constructed Fraction 0/1 is valid, and each arithmetic operation
whose exact result overflows the 32-bit representation yields an invalid
Fraction rather than a wrapped value. -/
theorem c7_fraction_validity :
    (∀ f : Fraction, f.is_valid = true ↔ f.denominator ≠ 0) ∧
    Fraction.defaultValue.is_valid = true ∧
    (∀ a b : Fraction,
      ¬(inInt32 (a.numerator * b.denominator + b.numerator * a.denominator) ∧
        inInt32 (a.denominator * b.denominator)) → (a.add b).is_valid = false) ∧
    (∀ a b : Fraction,
      ¬(inInt32 (a.numerator * b.denominator - b.numerator * a.denominator) ∧
        inInt32 (a.denominator * b.denominator)) → (a.sub b).is_valid = false) ∧
    (∀ (a : Fraction) (n : Int), ¬inInt32 (a.denominator * n) →
      (a.divInt n).is_valid = false) := by
  refine ⟨?_, rfl, ?_, ?_, ?_⟩
  · intro f
    simp [Fraction.is_valid]
  · intro a b h
    unfold Fraction.add
    rw [if_neg h]
    rfl
  · intro a b h
    unfold Fraction.sub
    rw [if_neg h]
    rfl
  · intro a n h
    unfold Fraction.divInt
    rw [if_neg h]
    rfl

theorem c7_fraction_validity_witness :
    (Fraction.is_valid ⟨0, 5⟩ = true) ∧
    Fraction.defaultValue.is_valid = true ∧
    (Fraction.add ⟨2147483647, 1⟩ ⟨1, 1⟩).is_valid = false ∧
    (Fraction.sub ⟨-2147483648, 1⟩ ⟨1, 1⟩).is_valid = false ∧
    (Fraction.divInt ⟨1, 2147483647⟩ 2).is_valid = false :=
  ⟨(c7_fraction_validity.1 ⟨0, 5⟩).mpr (by decide),
   c7_fraction_validity.2.1,
   c7_fraction_validity.2.2.1 ⟨2147483647, 1⟩ ⟨1, 1⟩ (by decide),
   c7_fraction_validity.2.2.2.1 ⟨-2147483648, 1⟩ ⟨1, 1⟩ (by decide),
   c7_fraction_validity.2.2.2.2 ⟨1, 2147483647⟩ 2 (by decide)⟩

/-! ## Item location box (iloc) version derivation -/

/-- Embedding of `Box_iloc::Extent` (src/libheif/box.h lines 367-374). The
`data` vector is only used on the write path and does not affect version
derivation. -/
structure IlocExtent where
  index : Nat
  offset : Nat
  length : Nat
deriving DecidableEq, Repr

/-- Embedding of `Box_iloc::Item` (src/libheif/box.h lines 376-384). -/
structure IlocItem where
  item_ID : Nat -- heif_item_id, a 32-bit unsigned integer
  construction_method : Nat
  data_reference_index : Nat
  base_offset : Nat
  extents : List IlocExtent
deriving DecidableEq, Repr

/-- Minimum iloc box version one item forces: 2 when its id exceeds the
unsigned 16-bit range, else 1 when its construction method is non-zero,
else 0. Modelled from the spec, section 4.8. -/
def ilocItemMinVersion (it : IlocItem) : Nat :=
  max (if 65535 < it.item_ID then 2 else 0)
      (if it.construction_method ≠ 0 then 1 else 0)

/-- Modelled from the spec: `Box_iloc::derive_box_version` (declared at
src/libheif/box.h line 410; body in the absent box.cc). Spec section 4.8:
"version 0 if no construction method is non-zero and all ids fit in u16;
else version 1; version 2 only when an id exceeds u16" - the maximum of the
per-item requirements over the item list. -/
def Box_iloc.derive_box_version (items : List IlocItem) : Nat :=
  items.foldr (fun it v => max (ilocItemMinVersion it) v) 0

theorem ilocItemMinVersion_le_two (it : IlocItem) : ilocItemMinVersion it ≤ 2 := by
  unfold ilocItemMinVersion
  split <;> split <;> simp

theorem ilocItemMinVersion_eq_zero (it : IlocItem) :
    ilocItemMinVersion it = 0 ↔
      it.construction_method = 0 ∧ it.item_ID ≤ 65535 := by
  unfold ilocItemMinVersion
  by_cases h1 : 65535 < it.item_ID <;> by_cases h2 : it.construction_method ≠ 0 <;>
    simp [h1, h2] <;> omega

theorem ilocItemMinVersion_eq_two (it : IlocItem) :
    ilocItemMinVersion it = 2 ↔ 65535 < it.item_ID := by
  unfold ilocItemMinVersion
  by_cases h1 : 65535 < it.item_ID <;> by_cases h2 : it.construction_method ≠ 0 <;>
    simp [h1, h2]

theorem ilocItemMinVersion_le_one (it : IlocItem) (h : it.item_ID ≤ 65535) :
    ilocItemMinVersion it ≤ 1 := by
  unfold ilocItemMinVersion
  rw [if_neg (by omega)]
  split <;> simp

theorem ilocItemMinVersion_ge_one (it : IlocItem) (h : it.construction_method ≠ 0) :
    1 ≤ ilocItemMinVersion it := by
  unfold ilocItemMinVersion
  rw [if_pos h]
  exact le_max_right _ _

theorem derive_member_le {it : IlocItem} {items : List IlocItem} (h : it ∈ items) :
    ilocItemMinVersion it ≤ Box_iloc.derive_box_version items := by
  induction items with
  | nil => cases h
  | cons hd tl ih =>
    simp only [Box_iloc.derive_box_version, List.foldr_cons]
    cases List.mem_cons.mp h with
    | inl heq => subst heq; exact le_max_left _ _
    | inr hmem => exact le_trans (ih hmem) (le_max_right _ _)

theorem derive_bound {items : List IlocItem} {v : Nat}
    (h : ∀ it ∈ items, ilocItemMinVersion it ≤ v) :
    Box_iloc.derive_box_version items ≤ v := by
  induction items with
  | nil => simp [Box_iloc.derive_box_version]
  | cons hd tl ih =>
    simp only [Box_iloc.derive_box_version, List.foldr_cons] at ih ⊢
    have h1 := h hd (List.mem_cons_self hd tl)
    have h2 := ih (fun it hm => h it (List.mem_cons_of_mem hd hm))
    omega

theorem derive_le_two (items : List IlocItem) :
    Box_iloc.derive_box_version items ≤ 2 :=
  derive_bound (fun it _ => ilocItemMinVersion_le_two it)

/-- C3: `Box_iloc::derive_box_version` chooses version 0 when no item has a
non-zero construction method and every item id fits in 16 bits; version 1
when a construction method is non-zero but all ids still fit; and version 2
exactly when some item id exceeds the unsigned 16-bit range. -/
theorem c3_iloc_derive_box_version (items : List IlocItem) :
    ((∀ it ∈ items, it.construction_method = 0) → (∀ it ∈ items, it.item_ID ≤ 65535) →
      Box_iloc.derive_box_version items = 0) ∧
    ((∃ it ∈ items, it.construction_method ≠ 0) → (∀ it ∈ items, it.item_ID ≤ 65535) →
      Box_iloc.derive_box_version items = 1) ∧
    (Box_iloc.derive_box_version items = 2 ↔ ∃ it ∈ items, 65535 < it.item_ID) := by
  refine ⟨?_, ?_, ?_, ?_⟩
  · intro hcm hid
    have : Box_iloc.derive_box_version items ≤ 0 :=
      derive_bound (fun it hm =>
        le_of_eq ((ilocItemMinVersion_eq_zero it).mpr ⟨hcm it hm, hid it hm⟩))
    omega
  · intro hcm hid
    obtain ⟨it, hmem, hne⟩ := hcm
    have hub : Box_iloc.derive_box_version items ≤ 1 :=
      derive_bound (fun it hm => ilocItemMinVersion_le_one it (hid it hm))
    have hlb : 1 ≤ Box_iloc.derive_box_version items :=
      le_trans (ilocItemMinVersion_ge_one it hne) (derive_member_le hmem)
    omega
  · intro h2
    by_contra hno
    push_neg at hno
    have hub : Box_iloc.derive_box_version items ≤ 1 :=
      derive_bound (fun it hm => ilocItemMinVersion_le_one it (hno it hm))
    omega
  · intro h2
    obtain ⟨it, hmem, hgt⟩ := h2
    have hlb : 2 ≤ Box_iloc.derive_box_version items := by
      have := derive_member_le hmem
      rw [(ilocItemMinVersion_eq_two it).mpr hgt] at this
      exact this
    have hub := derive_le_two items
    omega

theorem c3_iloc_derive_box_version_witness :
    Box_iloc.derive_box_version [⟨1, 0, 0, 0, []⟩, ⟨65535, 0, 0, 0, []⟩] = 0 ∧
    Box_iloc.derive_box_version
      [⟨1, 0, 0, 0, []⟩, ⟨65535, 0, 0, 0, []⟩, ⟨65536, 0, 0, 0, []⟩] = 2 :=
  ⟨(c3_iloc_derive_box_version [⟨1, 0, 0, 0, []⟩, ⟨65535, 0, 0, 0, []⟩]).1
      (by decide) (by decide),
   (c3_iloc_derive_box_version
      [⟨1, 0, 0, 0, []⟩, ⟨65535, 0, 0, 0, []⟩, ⟨65536, 0, 0, 0, []⟩]).2.2.mpr
      ⟨⟨65536, 0, 0, 0, []⟩, by simp, by decide⟩⟩

/-! ## Item reference box (iref) -/

/-- Embedding of `Box_iref::Reference` (src/libheif/box.h lines 745-751); the
nested box header is represented by its short type fourcc, which is what the
lookup compares. -/
structure IrefReference where
  header_type : Nat
  from_item_ID : Nat
  to_item_ID : List Nat
deriving DecidableEq, Repr

/-- Modelled from the spec: `Box_iref::get_references(item, type)` (declared
at src/libheif/box.h line 758; body in the absent box.cc). Spec section 4.9:
"returns the to_ids for the first reference whose from matches and type
matches"; the scan of `m_references` stops at the first hit and yields an
empty list when nothing matches. -/
def Box_iref.get_references (refs : List IrefReference) (itemID : Nat)
    (ref_type : Nat) : List Nat :=
  match refs with
  | [] => []
  | r :: rest =>
    if r.from_item_ID = itemID ∧ r.header_type = ref_type then r.to_item_ID
    else Box_iref.get_references rest itemID ref_type

/-- C8: `Box_iref::get_references(item, type)` returns the `to_item_ID` list
of the first stored reference whose `from_item_ID` equals the item and whose
header type equals the requested type, and the empty list when no stored
reference matches. -/
theorem c8_iref_get_references (refs : List IrefReference) (itemID ref_type : Nat) :
    Box_iref.get_references refs itemID ref_type =
      (refs.find? (fun r => r.from_item_ID == itemID && r.header_type == ref_type)).elim
        [] IrefReference.to_item_ID := by
  induction refs with
  | nil => rfl
  | cons r rest ih =>
    by_cases h : r.from_item_ID = itemID ∧ r.header_type = ref_type
    · rw [Box_iref.get_references, if_pos h,
        List.find?_cons_of_pos _ (by simp [h.1, h.2])]
      rfl
    · rw [Box_iref.get_references, if_neg h,
        List.find?_cons_of_neg _ (by simpa using h)]
      exact ih

/-! ## Item property association (ipco and ipma) -/

/-- Embedding of `Box_ipma::PropertyAssociation` (src/libheif/box.h lines
594-598): an essential flag and a 1-based 16-bit property index. -/
structure PropertyAssociation where
  essential : Bool
  property_index : Nat
deriving DecidableEq, Repr

/-- Embedding of `Box_ipma::Entry` (src/libheif/box.h lines 616-620). -/
structure IpmaEntry where
  item_ID : Nat
  associations : List PropertyAssociation
deriving DecidableEq, Repr

/-- Modelled from the spec: `Box_ipma::get_properties_for_item_ID` (declared
at src/libheif/box.h line 600; body in the absent box.cc): the association
list of the first entry carrying the item id; the C++ returns a null pointer
when the item has no entry, modelled as `none`. -/
def Box_ipma.get_properties_for_item_ID (entries : List IpmaEntry) (itemID : Nat) :
    Option (List PropertyAssociation) :=
  (entries.find? (fun e => e.item_ID == itemID)).map IpmaEntry.associations

/-- Error outcomes of the property lookup (spec sections 4.11 and 7). -/
inductive IpcoError where
  | noPropertiesAssigned
  | nonexistingPropertyReferenced
deriving DecidableEq, Repr

/-- Resolve a 1-based property index into the ipco child list; index 0 and
indices past the end do not resolve. -/
def ipcoChildAt (children : List BoxPtr) (index : Nat) : Option BoxPtr :=
  if index = 0 then none else children[index - 1]?

/-- Walk an association list in order, resolving each property index.
Modelled from the spec, section 4.11. -/
def ipcoCollect (children : List BoxPtr) :
    List PropertyAssociation → Except IpcoError (List BoxPtr)
  | [] => .ok []
  | a :: rest =>
    match ipcoChildAt children a.property_index with
    | none => .error .nonexistingPropertyReferenced
    | some c =>
      match ipcoCollect children rest with
      | .error e => .error e
      | .ok cs => .ok (c :: cs)

/-- Modelled from the spec: `Box_ipco::get_properties_for_item_ID` (declared
at src/libheif/box.h lines 534-536; body in the absent box.cc). Spec section
4.11: "get_properties_for_item walks the item's associations and returns the
referenced ipco children in association order"; a missing entry or an index
that does not resolve to an existing ipco child is an error (spec section 3). -/
def Box_ipco.get_properties_for_item_ID (children : List BoxPtr)
    (entries : List IpmaEntry) (itemID : Nat) : Except IpcoError (List BoxPtr) :=
  match Box_ipma.get_properties_for_item_ID entries itemID with
  | none => .error .noPropertiesAssigned
  | some assocs => ipcoCollect children assocs

theorem ipcoCollect_map {children : List BoxPtr} {assocs : List PropertyAssociation}
    (hidx : ∀ a ∈ assocs, 1 ≤ a.property_index ∧ a.property_index ≤ children.length) :
    ipcoCollect children assocs =
      .ok (assocs.map (fun a => children.getD (a.property_index - 1) 0)) := by
  induction assocs with
  | nil => rfl
  | cons a rest ih =>
    obtain ⟨h1, h2⟩ := hidx a (List.mem_cons_self a rest)
    have hlt : a.property_index - 1 < children.length := by omega
    unfold ipcoCollect ipcoChildAt
    rw [if_neg (by omega), List.getElem?_eq_getElem hlt]
    dsimp only
    rw [ih (fun x hx => hidx x (List.mem_cons_of_mem a hx))]
    dsimp only
    rw [List.map_cons, List.getD_eq_getElem children 0 hlt]

/-- C2: for an item whose ipma entry exists and whose association indices all
resolve, `Box_ipco::get_properties_for_item_ID` returns exactly the ipco
children whose 1-based positions in the child list are the property indices
listed in the ipma associations for the item, in association order. -/
theorem c2_ipco_get_properties (children : List BoxPtr) (entries : List IpmaEntry)
    (itemID : Nat) (assocs : List PropertyAssociation)
    (hfound : Box_ipma.get_properties_for_item_ID entries itemID = some assocs)
    (hidx : ∀ a ∈ assocs, 1 ≤ a.property_index ∧ a.property_index ≤ children.length) :
    Box_ipco.get_properties_for_item_ID children entries itemID =
      .ok (assocs.map (fun a => children.getD (a.property_index - 1) 0)) := by
  unfold Box_ipco.get_properties_for_item_ID
  rw [hfound]
  exact ipcoCollect_map hidx

theorem c2_ipco_get_properties_witness :
    Box_ipco.get_properties_for_item_ID [10, 20, 30]
      [⟨1, [⟨true, 2⟩, ⟨false, 1⟩]⟩] 1 = .ok [20, 10] :=
  c2_ipco_get_properties [10, 20, 30] [⟨1, [⟨true, 2⟩, ⟨false, 1⟩]⟩] 1
    [⟨true, 2⟩, ⟨false, 1⟩] (by rfl) (by decide)
